import Mathlib

/-!
Verification of the `cursive_tree_view` tree-view widget.

The repository ships `src/lib.rs` (the `TreeView` widget) which delegates its
tree bookkeeping to an internal module `tree_list` (`TreeList`, `Placement`).
The `tree_list.rs` file itself is not present in the sources, so the
`TreeList` operations below are modelled from the specification (spec.md,
sections 3 and 4.1); every such definition carries a doc comment starting
with `Modelled from the spec:`.  Everything about `TreeView` itself
(`on_event`, `focus_up`/`focus_down`, `set_selected_row`, `row`,
`insert_item`, `remove_item`, `set_collapsed`, enable/disable) is translated
directly from `src/lib.rs`.

Machine integers: all Rust `usize` values are modelled as `Nat`.  The one
place where underflow matters is the expression `self.list.height() - 1`
(in `focus_down`, the `End` arm of `on_event`, `remove_item` and
`extract_item`): when `height() = 0` the Rust subtraction underflows
(panicking in a debug build, wrapping to `2^64 - 1` in a release build).
We model it by `usizeDec`, the release-build wrapping behaviour, which makes
the underflow observable as the value `2^64 - 1`.
-/

/-- One entry of the flattened pre-order storage.  Field names follow the
field accesses in `src/lib.rs` (`item.value`, `item.level`, `item.children`,
`item.collapsed`): `level` is the nesting depth, `children` the total number
of descendants (the spec's `descendant_count`), `collapsed` hides the
descendants from the visible projection. -/
structure Node (α : Type) where
  value : α
  level : Nat
  children : Nat
  collapsed : Bool
deriving DecidableEq

/-- Modelled from the spec: the `Placement` enum of the missing
`tree_list.rs` (spec §4.1, "Placement semantics"): `child`, `siblingBefore`
and `siblingAfter` relative to a reference storage index. -/
inductive Placement where
  | child
  | siblingBefore
  | siblingAfter
deriving DecidableEq

/-- Wrapping decrement of a Rust `usize`: `n - 1` in release mode wraps to
`2 ^ 64 - 1` when `n = 0` (a debug build would panic there). -/
def usizeDec (n : Nat) : Nat :=
  if n = 0 then 2 ^ 64 - 1 else n - 1

/-- Modelled from the spec: `visible_height()` of the missing `tree_list.rs`
(spec §4.1): walk storage once, counting each encountered node and skipping
`children` further entries whenever the node is collapsed.  The same
skip-on-collapsed step appears literally in the `draw` closure of
`src/lib.rs`. -/
def heightGo {α : Type} : Nat → List (Node α) → Nat
  | 0, _ => 0
  | _ + 1, [] => 0
  | fuel + 1, n :: rest =>
    1 + heightGo fuel (rest.drop (if n.collapsed then n.children else 0))

/-- Modelled from the spec (see `heightGo`): `visible_height()` with its
fuel instantiated to the storage length, which the skip-on-collapsed walk
never exhausts. -/
def heightFrom {α : Type} (l : List (Node α)) : Nat :=
  heightGo l.length l

/-- Modelled from the spec: `visual_index(row)` of the missing `tree_list.rs`
(spec §4.1, `visible_index_to_storage`): the storage index of the `row`-th
visible entry, found by the same skip-on-collapsed walk as `heightFrom`.
A row beyond the visible height is a caller contract violation in the spec;
the model then returns the storage length (so that downstream lookups
report an absent result). -/
def visIdxGo {α : Type} : Nat → List (Node α) → Nat → Nat
  | 0, _, _ => 0
  | _ + 1, [], _ => 0
  | _ + 1, _ :: _, 0 => 0
  | fuel + 1, n :: rest, r + 1 =>
    (if n.collapsed then n.children else 0) + 1 +
      visIdxGo fuel (rest.drop (if n.collapsed then n.children else 0)) r

/-- Modelled from the spec (see `visIdxGo`): `visual_index(row)` with its
fuel instantiated to the storage length. -/
def visIdx {α : Type} (l : List (Node α)) (r : Nat) : Nat :=
  visIdxGo l.length l r

/-- Modelled from the spec: the visible projection (spec §3, invariant 4) —
the subsequence of storage obtained by the skip-on-collapsed walk. -/
def visibleGo {α : Type} : Nat → List (Node α) → List (Node α)
  | 0, _ => []
  | _ + 1, [] => []
  | fuel + 1, n :: rest =>
    n :: visibleGo fuel (rest.drop (if n.collapsed then n.children else 0))

/-- Modelled from the spec (see `visibleGo`): the visible projection with
its fuel instantiated to the storage length. -/
def visibleList {α : Type} (l : List (Node α)) : List (Node α) :=
  visibleGo l.length l

/-- Modelled from the spec: `get_collapsed(index)` of the missing
`tree_list.rs`; total with default `false` for an out-of-range index (the
spec only constrains in-range indices). -/
def getCollapsed {α : Type} (l : List (Node α)) (i : Nat) : Bool :=
  ((l.get? i).map Node.collapsed).getD false

/-- Modelled from the spec: `get_children(index)` of the missing
`tree_list.rs`; total with default `0` for an out-of-range index. -/
def getChildren {α : Type} (l : List (Node α)) (i : Nat) : Nat :=
  ((l.get? i).map Node.children).getD 0

/-- Modelled from the spec: `TreeList::set_collapsed(index, collapsed)`
(spec §4.1): O(1), only the flag of the addressed node is set; an invalid
index is a recoverable no-op (spec §7). -/
def setCollapsedAt {α : Type} (l : List (Node α)) (i : Nat) (c : Bool) :
    List (Node α) :=
  match l.get? i with
  | some n => l.set i { n with collapsed := c }
  | none => l

/-- Helper for ancestor bookkeeping: given the storage prefix before a
position REVERSED, and the depth `d` of the node at that position, apply `f`
to the `children` count of every ancestor (the chain found by scanning
backwards for strictly shallower nodes, as dictated by pre-order
contiguity). -/
def adjRev {α : Type} (f : Nat → Nat) : List (Node α) → Nat → List (Node α)
  | [], _ => []
  | n :: rest, d =>
    if n.level < d then { n with children := f n.children } :: adjRev f rest n.level
    else n :: adjRev f rest d

/-- Modelled from the spec: the "increments `descendant_count` of every
ancestor on the path from the parent up to the root" bookkeeping of
`insert` / `remove_with_subtree` (spec §4.1), applied to the storage prefix
before the affected position, for a node of depth `d` at that position. -/
def bumpAncestors {α : Type} (f : Nat → Nat) (pre : List (Node α)) (d : Nat) :
    List (Node α) :=
  (adjRev f pre.reverse d).reverse

/-- Modelled from the spec: `TreeList::insert(placement, index, value)`
(spec §4.1): on empty storage the node becomes a root at depth 0
(placement ignored); otherwise the placement rule resolves a target storage
index `p` and depth `d` relative to the reference node, the new node (no
descendants, initially expanded) is inserted at `p`, every ancestor's
`children` count is incremented, and the occupied storage index `p` is
returned.  An out-of-range reference index is a contract violation per the
spec; the model then appends a fresh root at the end of storage. -/
def listInsert {α : Type} (l : List (Node α)) (pl : Placement) (r : Nat)
    (item : α) : Nat × List (Node α) :=
  match l.get? r with
  | none => (l.length, l ++ [⟨item, 0, 0, false⟩])
  | some nr =>
    let pd : Nat × Nat :=
      match pl with
      | .child => (r + 1, nr.level + 1)
      | .siblingBefore => (r, nr.level)
      | .siblingAfter => (r + nr.children + 1, nr.level)
    (pd.1, bumpAncestors (· + 1) (l.take pd.1) pd.2 ++ ⟨item, pd.2, 0, false⟩ :: l.drop pd.1)

/-- Modelled from the spec: `TreeList::remove_with_children(index)`
(spec §4.1, `remove_with_subtree`): removes the node and its contiguous
descendant range (`children + 1` entries), returns the removed values in
pre-order, and decrements every ancestor's `children` count by the number of
removed entries; an invalid index yields an absent result and no change. -/
def removeWithChildren {α : Type} (l : List (Node α)) (i : Nat) :
    Option (List α) × List (Node α) :=
  match l.get? i with
  | none => (none, l)
  | some ni =>
    (some (((l.drop i).take (ni.children + 1)).map Node.value),
      bumpAncestors (fun x => x - (ni.children + 1)) (l.take i) ni.level ++
        l.drop (i + ni.children + 1))

/-- Predicate: no node of the storage is collapsed. -/
def noCollapsed {α : Type} (l : List (Node α)) : Prop :=
  ∀ x ∈ l, x.collapsed = false

instance {α : Type} (l : List (Node α)) : Decidable (noCollapsed l) := by
  unfold noCollapsed; infer_instance

/-- Well-formedness (spec §3, invariant 1, the part expressible without
depths): every node's descendant span `[i+1, i+children]` lies inside
storage. -/
def WF {α : Type} (l : List (Node α)) : Prop :=
  ∀ i, i < l.length → i + getChildren l i < l.length

instance {α : Type} (l : List (Node α)) : Decidable (WF l) := by
  unfold WF; infer_instance

/-- Which callback the widget hands back to cursive (`Callback::from_fn`
closures in `on_event` of `src/lib.rs`), together with the arguments the
closure captures. -/
inductive CbCall where
  | submit (row : Nat)
  | select (row : Nat)
  | collapse (row : Nat) (collapsed : Bool)
deriving DecidableEq

/-- Result of `on_event`: cursive's `EventResult`, with `Consumed` carrying
an optional callback. -/
inductive EvResult where
  | ignored
  | consumed (cb : Option CbCall)
deriving DecidableEq

/-- Number of callbacks carried by an `EvResult`. -/
def cbCount : EvResult → Nat
  | .ignored => 0
  | .consumed none => 0
  | .consumed (some _) => 1

/-- The `TreeView` state of `src/lib.rs` (lines 54-64).  The three callback
slots hold opaque Rust closures; the model keeps only whether a handler is
registered (`on_submit.is_some()` etc.), which is all `on_event` inspects.
`scrollbase` and `last_size` are presentation geometry (out of scope per
spec §1) and carry no observable state for the specified behaviour. -/
structure TreeView (α : Type) where
  enabled : Bool
  hasOnSubmit : Bool
  hasOnSelect : Bool
  hasOnCollapse : Bool
  focus : Nat
  list : List (Node α)
deriving DecidableEq

namespace TreeView

/-- Translation of `TreeView::new` (lib.rs lines 69-81). -/
def new (α : Type) : TreeView α :=
  ⟨true, false, false, false, 0, []⟩

/-- Translation of `TreeView::disable` (lib.rs line 86). -/
def disable {α : Type} (v : TreeView α) : TreeView α :=
  { v with enabled := false }

/-- Translation of `TreeView::enable` (lib.rs line 91). -/
def enable {α : Type} (v : TreeView α) : TreeView α :=
  { v with enabled := true }

/-- Translation of `TreeView::len` (lib.rs line 217). -/
def len {α : Type} (v : TreeView α) : Nat :=
  v.list.length

/-- Translation of `TreeView::is_empty` (lib.rs line 222). -/
def isEmptyView {α : Type} (v : TreeView α) : Bool :=
  v.list.isEmpty

/-- Translation of `TreeView::row` (lib.rs lines 227-234): `None` when the
model is empty, otherwise the focused row. -/
def rowOf {α : Type} (v : TreeView α) : Option Nat :=
  if v.isEmptyView then none else some v.focus

/-- Translation of `TreeView::set_selected_row` (lib.rs lines 237-240): the
focus is set to the given index unconditionally (`scroll_to` is scrollbar
geometry with no modelled state). -/
def setSelectedRow {α : Type} (v : TreeView α) (rowIndex : Nat) : TreeView α :=
  { v with focus := rowIndex }

/-- Translation of `TreeView::insert_item` (lib.rs lines 264-267): translate
the row through `visual_index`, delegate to `TreeList::insert`, return the
new view together with the returned index. -/
def insertItem {α : Type} (v : TreeView α) (item : α) (pl : Placement)
    (row : Nat) : TreeView α × Nat :=
  let res := listInsert v.list pl (visIdx v.list row) item
  ({ v with list := res.2 }, res.1)

/-- Translation of `TreeView::remove_item` (lib.rs lines 272-277): translate
the row, remove the subtree, clamp the focus to `height() - 1` (which is the
wrapping `usizeDec` when the model becomes empty). -/
def removeItem {α : Type} (v : TreeView α) (row : Nat) :
    TreeView α × Option (List α) :=
  let res := removeWithChildren v.list (visIdx v.list row)
  ({ v with list := res.2, focus := min v.focus (usizeDec (heightFrom res.2)) },
    res.1)

/-- Translation of `TreeView::set_collapsed` (lib.rs lines 302-305):
translate the row through `visual_index`, then set the flag in the list. -/
def setCollapsedView {α : Type} (v : TreeView α) (row : Nat) (c : Bool) :
    TreeView α :=
  { v with list := setCollapsedAt v.list (visIdx v.list row) c }

/-- Translation of `TreeView::collapse_item` (lib.rs lines 290-293). -/
def collapseItem {α : Type} (v : TreeView α) (row : Nat) : TreeView α :=
  { v with list := setCollapsedAt v.list (visIdx v.list row) true }

end TreeView

/-- Keyboard events relevant to `on_event` (lib.rs lines 412-479); `other`
stands for every event caught by the final wildcard arm. -/
inductive TEvent where
  | up
  | down
  | pageUp
  | pageDown
  | home
  | endKey
  | enter
  | other
deriving DecidableEq

/-- Shared tail of `on_event` (lib.rs lines 466-477): after a fall-through
arm, scroll (no modelled state) and emit the select callback when the model
is non-empty and the focus moved. -/
def afterNav {α : Type} (v : TreeView α) (lastFocus : Nat) :
    TreeView α × EvResult :=
  if !v.list.isEmpty && lastFocus != v.focus then
    (v, .consumed (if v.hasOnSelect then some (.select v.focus) else none))
  else
    (v, .ignored)

/-- Translation of `TreeView::on_event` (lib.rs lines 412-479).  `focus_up n`
is `focus - min focus n` and `focus_down n` is `min (focus + n) (height - 1)`
(lib.rs lines 318-326), with the `usize` subtraction modelled by `usizeDec`.
Arms whose guard fails, and unknown events, hit the wildcard
`return EventResult::Ignored`. -/
def onEvent {α : Type} (v : TreeView α) (e : TEvent) : TreeView α × EvResult :=
  if !v.enabled then (v, .ignored)
  else
    let lastFocus := v.focus
    match e with
    | .up =>
      if v.focus > 0 then
        afterNav { v with focus := v.focus - min v.focus 1 } lastFocus
      else (v, .ignored)
    | .down =>
      if v.focus + 1 < heightFrom v.list then
        afterNav { v with focus := min (v.focus + 1) (usizeDec (heightFrom v.list)) } lastFocus
      else (v, .ignored)
    | .pageUp =>
      afterNav { v with focus := v.focus - min v.focus 10 } lastFocus
    | .pageDown =>
      afterNav { v with focus := min (v.focus + 10) (usizeDec (heightFrom v.list)) } lastFocus
    | .home =>
      afterNav { v with focus := 0 } lastFocus
    | .endKey =>
      afterNav { v with focus := usizeDec (heightFrom v.list) } lastFocus
    | .enter =>
      if !v.list.isEmpty then
        let row := v.focus
        let index := visIdx v.list row
        let collapsed := getCollapsed v.list index
        let children := getChildren v.list index
        if children > 0 then
          let v2 : TreeView α := { v with list := setCollapsedAt v.list index (!collapsed) }
          if v.hasOnCollapse then (v2, .consumed (some (.collapse row (!collapsed))))
          else afterNav v2 lastFocus
        else
          if v.hasOnSubmit then (v, .consumed (some (.submit row)))
          else afterNav v lastFocus
      else afterNav v lastFocus
    | .other => (v, .ignored)

/-- Concrete state: two nodes, a root with one expanded child, every
callback registered, focus 0.  Used to instantiate theorems. -/
def demoTwo : TreeView Nat :=
  ⟨true, true, true, true, 0, [⟨0, 0, 1, false⟩, ⟨1, 1, 0, false⟩]⟩

/-- Concrete state: a single expanded root, every callback registered,
focus 0. -/
def demoSolo : TreeView Nat :=
  ⟨true, true, true, true, 0, [⟨7, 0, 0, false⟩]⟩

/-- Concrete state: a single expanded root but with the focus already out of
range (as `set_selected_row` permits), no callbacks registered. -/
def demoFarFocus : TreeView Nat :=
  ⟨true, false, false, false, 5, [⟨0, 0, 0, false⟩]⟩

/-- Concrete state: a collapsed root hiding one child, followed by two
further roots; focus 0, no callbacks.  Rows are 0 ↦ storage 0,
1 ↦ storage 2, 2 ↦ storage 3. -/
def demoShifted : TreeView Nat :=
  ⟨true, false, false, false, 0,
    [⟨0, 0, 1, true⟩, ⟨1, 1, 0, false⟩, ⟨2, 0, 0, false⟩, ⟨3, 0, 0, false⟩]⟩

/-- Concrete storage: a root with one COLLAPSED leaf child — well-formed,
every collapsed node is a leaf, so the full storage is visible. -/
def demoFlatLeaf : List (Node Nat) :=
  [⟨0, 0, 1, false⟩, ⟨1, 1, 0, true⟩]

/-! ## Helper lemmas about the skip-on-collapsed walk -/

theorem heightGo_two {α : Type} :
    ∀ (f1 f2 : Nat) (l : List (Node α)), l.length ≤ f1 → l.length ≤ f2 →
      heightGo f1 l = heightGo f2 l := by
  intro f1
  induction f1 with
  | zero =>
    intro f2 l hl _
    have : l = [] := List.eq_nil_of_length_eq_zero (by omega)
    subst this
    cases f2 <;> rfl
  | succ f1 ih =>
    intro f2 l hl hl2
    cases l with
    | nil => cases f2 <;> rfl
    | cons n rest =>
      cases f2 with
      | zero => simp at hl2
      | succ f2 =>
        show 1 + heightGo f1 (rest.drop (if n.collapsed then n.children else 0)) =
          1 + heightGo f2 (rest.drop (if n.collapsed then n.children else 0))
        have hd := List.length_drop (if n.collapsed then n.children else 0) rest
        simp only [List.length_cons] at hl hl2
        rw [ih f2 _ (by omega) (by omega)]

theorem heightGo_fuel {α : Type} (f : Nat) (l : List (Node α))
    (h : l.length ≤ f) : heightGo f l = heightFrom l :=
  heightGo_two f l.length l h (Nat.le_refl _)

theorem heightFrom_nil {α : Type} : heightFrom ([] : List (Node α)) = 0 := rfl

theorem heightFrom_cons {α : Type} (n : Node α) (rest : List (Node α)) :
    heightFrom (n :: rest) =
      1 + heightFrom (rest.drop (if n.collapsed then n.children else 0)) := by
  show heightGo (rest.length + 1) (n :: rest) = _
  show 1 + heightGo rest.length (rest.drop (if n.collapsed then n.children else 0)) = _
  have hd := List.length_drop (if n.collapsed then n.children else 0) rest
  rw [heightGo_fuel _ _ (by omega)]

theorem visIdxGo_two {α : Type} :
    ∀ (f1 f2 : Nat) (l : List (Node α)) (r : Nat), l.length ≤ f1 → l.length ≤ f2 →
      visIdxGo f1 l r = visIdxGo f2 l r := by
  intro f1
  induction f1 with
  | zero =>
    intro f2 l r hl _
    have : l = [] := List.eq_nil_of_length_eq_zero (by omega)
    subst this
    cases f2 <;> cases r <;> rfl
  | succ f1 ih =>
    intro f2 l r hl hl2
    cases l with
    | nil => cases f2 <;> cases r <;> rfl
    | cons n rest =>
      cases f2 with
      | zero => simp at hl2
      | succ f2 =>
        cases r with
        | zero => rfl
        | succ r =>
          show (if n.collapsed then n.children else 0) + 1 +
              visIdxGo f1 (rest.drop (if n.collapsed then n.children else 0)) r =
            (if n.collapsed then n.children else 0) + 1 +
              visIdxGo f2 (rest.drop (if n.collapsed then n.children else 0)) r
          have hd := List.length_drop (if n.collapsed then n.children else 0) rest
          simp only [List.length_cons] at hl hl2
          rw [ih f2 _ r (by omega) (by omega)]

theorem visIdxGo_fuel {α : Type} (f : Nat) (l : List (Node α)) (r : Nat)
    (h : l.length ≤ f) : visIdxGo f l r = visIdx l r :=
  visIdxGo_two f l.length l r h (Nat.le_refl _)

theorem visIdx_cons_succ {α : Type} (n : Node α) (rest : List (Node α)) (r : Nat) :
    visIdx (n :: rest) (r + 1) =
      (if n.collapsed then n.children else 0) + 1 +
        visIdx (rest.drop (if n.collapsed then n.children else 0)) r := by
  show visIdxGo (rest.length + 1) (n :: rest) (r + 1) = _
  show (if n.collapsed then n.children else 0) + 1 +
      visIdxGo rest.length (rest.drop (if n.collapsed then n.children else 0)) r = _
  have hd := List.length_drop (if n.collapsed then n.children else 0) rest
  rw [visIdxGo_fuel _ _ _ (by omega)]

theorem visIdx_zero {α : Type} (l : List (Node α)) : visIdx l 0 = 0 := by
  cases l <;> rfl

theorem visibleGo_two {α : Type} :
    ∀ (f1 f2 : Nat) (l : List (Node α)), l.length ≤ f1 → l.length ≤ f2 →
      visibleGo f1 l = visibleGo f2 l := by
  intro f1
  induction f1 with
  | zero =>
    intro f2 l hl _
    have : l = [] := List.eq_nil_of_length_eq_zero (by omega)
    subst this
    cases f2 <;> rfl
  | succ f1 ih =>
    intro f2 l hl hl2
    cases l with
    | nil => cases f2 <;> rfl
    | cons n rest =>
      cases f2 with
      | zero => simp at hl2
      | succ f2 =>
        show n :: visibleGo f1 (rest.drop (if n.collapsed then n.children else 0)) =
          n :: visibleGo f2 (rest.drop (if n.collapsed then n.children else 0))
        have hd := List.length_drop (if n.collapsed then n.children else 0) rest
        simp only [List.length_cons] at hl hl2
        rw [ih f2 _ (by omega) (by omega)]

theorem visibleGo_fuel {α : Type} (f : Nat) (l : List (Node α))
    (h : l.length ≤ f) : visibleGo f l = visibleList l :=
  visibleGo_two f l.length l h (Nat.le_refl _)

theorem visibleList_cons {α : Type} (n : Node α) (rest : List (Node α)) :
    visibleList (n :: rest) =
      n :: visibleList (rest.drop (if n.collapsed then n.children else 0)) := by
  show visibleGo (rest.length + 1) (n :: rest) = _
  show n :: visibleGo rest.length (rest.drop (if n.collapsed then n.children else 0)) = _
  have hd := List.length_drop (if n.collapsed then n.children else 0) rest
  rw [visibleGo_fuel _ _ (by omega)]

theorem heightFrom_le {α : Type} : ∀ l : List (Node α), heightFrom l ≤ l.length
  | [] => by simp [heightFrom_nil]
  | n :: rest => by
    have ih := heightFrom_le (rest.drop (if n.collapsed then n.children else 0))
    rw [heightFrom_cons]
    have hd := List.length_drop (if n.collapsed then n.children else 0) rest
    simp only [List.length_cons]
    omega
termination_by l => l.length
decreasing_by
  simp only [List.length_drop, List.length_cons]
  omega

theorem visIdx_lt_length {α : Type} :
    ∀ (l : List (Node α)) (r : Nat), r < heightFrom l → visIdx l r < l.length
  | [], r => by
    intro h
    rw [heightFrom_nil] at h
    omega
  | _ :: _, 0 => by
    intro _
    simp [visIdx_zero]
  | n :: rest, r + 1 => by
    intro h
    rw [heightFrom_cons] at h
    rw [visIdx_cons_succ]
    have ih := visIdx_lt_length (rest.drop (if n.collapsed then n.children else 0)) r
      (by omega)
    have hd := List.length_drop (if n.collapsed then n.children else 0) rest
    have hh : heightFrom (rest.drop (if n.collapsed then n.children else 0)) ≤
        (rest.drop (if n.collapsed then n.children else 0)).length :=
      heightFrom_le _
    simp only [List.length_cons]
    omega
termination_by l _ => l.length
decreasing_by
  simp only [List.length_drop, List.length_cons]
  omega

theorem noCollapsed_cons {α : Type} (n : Node α) (rest : List (Node α)) :
    noCollapsed (n :: rest) ↔ n.collapsed = false ∧ noCollapsed rest := by
  simp [noCollapsed]

theorem heightFrom_noCollapsed {α : Type} :
    ∀ l : List (Node α), noCollapsed l → heightFrom l = l.length := by
  intro l
  induction l with
  | nil => intro _; simp [heightFrom_nil]
  | cons n rest ih =>
    intro h
    rw [noCollapsed_cons] at h
    rw [heightFrom_cons, h.1]
    simp [ih h.2, Nat.add_comm]

theorem visIdx_noCollapsed {α : Type} :
    ∀ (l : List (Node α)) (r : Nat), noCollapsed l → r < l.length → visIdx l r = r := by
  intro l
  induction l with
  | nil => intro r _ hr; simp at hr
  | cons n rest ih =>
    intro r h hr
    rw [noCollapsed_cons] at h
    cases r with
    | zero => simp [visIdx_zero]
    | succ r =>
      rw [visIdx_cons_succ, h.1]
      simp only [Bool.false_eq_true, if_false, List.drop_zero, Nat.zero_add]
      rw [ih r h.2 (by simpa using Nat.lt_of_succ_lt_succ (by simpa using hr))]
      omega

theorem visibleList_sublist {α : Type} :
    ∀ l : List (Node α), List.Sublist (visibleList l) l
  | [] => List.nil_sublist []
  | n :: rest => by
    rw [visibleList_cons]
    refine List.Sublist.cons₂ n ?_
    exact List.Sublist.trans
      (visibleList_sublist (rest.drop (if n.collapsed then n.children else 0)))
      (List.drop_sublist _ _)
termination_by l => l.length
decreasing_by
  simp only [List.length_drop, List.length_cons]
  omega

/-! ## Helper lemmas about ancestor bookkeeping -/

theorem adjRev_length {α : Type} (f : Nat → Nat) :
    ∀ (l : List (Node α)) (d : Nat), (adjRev f l d).length = l.length := by
  intro l
  induction l with
  | nil => intro d; rfl
  | cons n rest ih =>
    intro d
    rw [adjRev]
    split <;> simp [ih]

theorem adjRev_comp {α : Type} (f g : Nat → Nat) :
    ∀ (l : List (Node α)) (d : Nat),
      adjRev f (adjRev g l d) d = adjRev (fun x => f (g x)) l d := by
  intro l
  induction l with
  | nil => intro d; rfl
  | cons n rest ih =>
    intro d
    rw [adjRev]
    by_cases h : n.level < d
    · rw [if_pos h]
      rw [adjRev, if_pos (by simpa using h)]
      rw [adjRev, if_pos h]
      simp [ih]
    · rw [if_neg h]
      rw [adjRev, if_neg h]
      rw [adjRev, if_neg h]
      simp [ih]

theorem adjRev_id {α : Type} :
    ∀ (l : List (Node α)) (d : Nat), adjRev (fun x => x) l d = l := by
  intro l
  induction l with
  | nil => intro d; rfl
  | cons n rest ih =>
    intro d
    rw [adjRev]
    split <;> simp [ih]

theorem adjRev_map_collapsed {α : Type} (f : Nat → Nat) :
    ∀ (l : List (Node α)) (d : Nat),
      (adjRev f l d).map Node.collapsed = l.map Node.collapsed := by
  intro l
  induction l with
  | nil => intro d; rfl
  | cons n rest ih =>
    intro d
    rw [adjRev]
    split <;> simp [ih]

theorem bumpAncestors_length {α : Type} (f : Nat → Nat) (pre : List (Node α))
    (d : Nat) : (bumpAncestors f pre d).length = pre.length := by
  simp [bumpAncestors, adjRev_length]

theorem bumpAncestors_cancel {α : Type} (pre : List (Node α)) (d : Nat) :
    bumpAncestors (fun x => x - 1) (bumpAncestors (· + 1) pre d) d = pre := by
  unfold bumpAncestors
  rw [List.reverse_reverse, adjRev_comp]
  have : (fun x => x + 1 - 1) = fun x : Nat => x := by
    funext x; omega
  rw [this, adjRev_id, List.reverse_reverse]

theorem noCollapsed_of_map_collapsed {α : Type} {l₁ l₂ : List (Node α)}
    (h : l₁.map Node.collapsed = l₂.map Node.collapsed) (h₂ : noCollapsed l₂) :
    noCollapsed l₁ := by
  intro x hx
  have hmem : x.collapsed ∈ l₂.map Node.collapsed := by
    rw [← h]
    exact List.mem_map_of_mem Node.collapsed hx
  rcases List.mem_map.mp hmem with ⟨y, hy, hyx⟩
  rw [← hyx]
  exact h₂ y hy

theorem noCollapsed_reverse {α : Type} {l : List (Node α)} (h : noCollapsed l) :
    noCollapsed l.reverse := by
  intro x hx
  exact h x (List.mem_reverse.mp hx)

theorem noCollapsed_bumpAncestors {α : Type} (f : Nat → Nat)
    {pre : List (Node α)} (d : Nat) (h : noCollapsed pre) :
    noCollapsed (bumpAncestors f pre d) := by
  unfold bumpAncestors
  apply noCollapsed_reverse
  exact noCollapsed_of_map_collapsed (adjRev_map_collapsed f pre.reverse d)
    (noCollapsed_reverse h)

theorem noCollapsed_append {α : Type} {l₁ l₂ : List (Node α)}
    (h₁ : noCollapsed l₁) (h₂ : noCollapsed l₂) : noCollapsed (l₁ ++ l₂) := by
  intro x hx
  rcases List.mem_append.mp hx with h | h
  · exact h₁ x h
  · exact h₂ x h

theorem noCollapsed_sub {α : Type} {l₁ l₂ : List (Node α)}
    (hs : List.Sublist l₁ l₂) (h : noCollapsed l₂) : noCollapsed l₁ := by
  intro x hx
  exact h x (hs.subset hx)

/-! ## Helper lemmas about `List.set` and the walk -/

theorem set_drop {β : Type} :
    ∀ (l : List β) (k j : Nat) (a : β),
      (l.set (k + j) a).drop k = (l.drop k).set j a := by
  intro l
  induction l with
  | nil => intro k j a; simp
  | cons x rest ih =>
    intro k j a
    cases k with
    | zero => simp
    | succ k =>
      have harith : k + 1 + j = (k + j) + 1 := by omega
      rw [harith, List.set_cons_succ, List.drop_succ_cons, List.drop_succ_cons,
        ih k j a]

theorem set_same {β : Type} :
    ∀ (l : List β) (i : Nat) (a : β), l.get? i = some a → l.set i a = l := by
  intro l
  induction l with
  | nil => intro i a h; simp at h
  | cons x rest ih =>
    intro i a h
    cases i with
    | zero =>
      simp only [List.get?_cons_zero, Option.some.injEq] at h
      simp [h]
    | succ i =>
      simp only [List.get?_cons_succ] at h
      rw [List.set_cons_succ, ih i a h]

theorem visIdx_set_stable {α : Type} :
    ∀ (l : List (Node α)) (r : Nat) (a : Node α), r < heightFrom l →
      visIdx (l.set (visIdx l r) a) r = visIdx l r
  | [], r, a => by
    intro h
    rw [heightFrom_nil] at h
    omega
  | l, 0, a => by
    intro _
    simp [visIdx_zero]
  | n :: rest, r + 1, a => by
    intro h
    rw [heightFrom_cons] at h
    rw [visIdx_cons_succ]
    have harith : (if n.collapsed then n.children else 0) + 1 +
        visIdx (rest.drop (if n.collapsed then n.children else 0)) r =
        ((if n.collapsed then n.children else 0) +
          visIdx (rest.drop (if n.collapsed then n.children else 0)) r) + 1 := by
      omega
    rw [harith, List.set_cons_succ, visIdx_cons_succ,
      set_drop rest (if n.collapsed then n.children else 0) _ a,
      visIdx_set_stable (rest.drop (if n.collapsed then n.children else 0)) r a
        (by omega)]
    omega
termination_by l r _ => l.length
decreasing_by
  simp only [List.length_drop, List.length_cons]
  omega

/-! ## Helper lemmas for the visible-height invariant -/

theorem WF_tail {α : Type} {n : Node α} {rest : List (Node α)}
    (h : WF (n :: rest)) : WF rest := by
  intro i hi
  have := h (i + 1) (by simpa using Nat.succ_lt_succ hi)
  have hg : getChildren (n :: rest) (i + 1) = getChildren rest i := by
    simp [getChildren]
  rw [hg] at this
  simp only [List.length_cons] at this
  omega

theorem WF_head_le {α : Type} {n : Node α} {rest : List (Node α)}
    (h : WF (n :: rest)) : n.children ≤ rest.length := by
  have := h 0 (by simp)
  have hg : getChildren (n :: rest) 0 = n.children := by simp [getChildren]
  rw [hg] at this
  simp only [List.length_cons] at this
  omega

theorem heightFrom_eq_of_flat {α : Type} :
    ∀ l : List (Node α), (∀ x ∈ l, x.collapsed = true → x.children = 0) →
      heightFrom l = l.length := by
  intro l
  induction l with
  | nil => intro _; simp [heightFrom_nil]
  | cons n rest ih =>
    intro h
    rw [heightFrom_cons]
    have hk : (if n.collapsed then n.children else 0) = 0 := by
      cases hc : n.collapsed with
      | false => simp
      | true => simp [h n (List.mem_cons_self n rest) hc]
    rw [hk]
    simp only [List.drop_zero, List.length_cons]
    rw [ih fun x hx => h x (List.mem_cons_of_mem n hx)]
    omega

theorem flat_of_heightFrom_eq {α : Type} :
    ∀ l : List (Node α), WF l → heightFrom l = l.length →
      ∀ x ∈ l, x.collapsed = true → x.children = 0 := by
  intro l
  induction l with
  | nil => intro _ _ x hx; simp at hx
  | cons n rest ih =>
    intro hwf hh x hx
    rw [heightFrom_cons] at hh
    simp only [List.length_cons] at hh
    have hle := heightFrom_le (rest.drop (if n.collapsed then n.children else 0))
    have hdl := List.length_drop (if n.collapsed then n.children else 0) rest
    have hk0 : (if n.collapsed then n.children else 0) = 0 := by
      have hkb : (if n.collapsed then n.children else 0) ≤ rest.length := by
        have := WF_head_le hwf
        split <;> omega
      omega
    rw [hk0, List.drop_zero] at hh
    rcases List.mem_cons.mp hx with hx | hx
    · subst hx
      intro hc
      rw [hc] at hk0
      simpa using hk0
    · exact ih (WF_tail hwf) (by omega) x hx

/-! ## Helper lemmas for the insert/remove round trip -/

theorem listInsert_shape {α : Type} (l : List (Node α)) (pl : Placement)
    (r : Nat) (item : α) (nr : Node α) (hget : l.get? r = some nr)
    (hwf : WF l) :
    ∃ p d, p ≤ l.length ∧
      listInsert l pl r item =
        (p, bumpAncestors (· + 1) (l.take p) d ++ ⟨item, d, 0, false⟩ :: l.drop p) := by
  have hr : r < l.length := by
    by_contra hcon
    rw [List.get?_eq_none.mpr (by omega)] at hget
    exact Option.noConfusion hget
  have hget2 : l[r]? = some nr := by
    rw [← List.get?_eq_getElem?]
    exact hget
  cases pl with
  | child =>
    exact ⟨r + 1, nr.level + 1, by omega, by simp [listInsert, hget2]⟩
  | siblingBefore =>
    exact ⟨r, nr.level, by omega, by simp [listInsert, hget2]⟩
  | siblingAfter =>
    refine ⟨r + nr.children + 1, nr.level, ?_, by simp [listInsert, hget2]⟩
    have := hwf r hr
    have hgc : getChildren l r = nr.children := by
      simp [getChildren, hget2]
    omega

theorem roundtrip_list {α : Type} (l : List (Node α)) (p d : Nat) (item : α)
    (hp : p ≤ l.length) :
    removeWithChildren
        (bumpAncestors (· + 1) (l.take p) d ++ ⟨item, d, 0, false⟩ :: l.drop p)
        p =
      (some [item], l) := by
  set A := bumpAncestors (· + 1) (l.take p) d with hA
  have hlenA : A.length = p := by
    rw [hA, bumpAncestors_length, List.length_take]
    omega
  set x : Node α := ⟨item, d, 0, false⟩ with hx
  have hget : (A ++ x :: l.drop p).get? p = some x := by
    rw [List.get?_eq_getElem?, ← hlenA,
      List.getElem?_append_right (Nat.le_refl _)]
    simp
  have htake : (A ++ x :: l.drop p).take p = A := by
    rw [← hlenA]
    exact List.take_left A _
  have hdrop : (A ++ x :: l.drop p).drop p = x :: l.drop p := by
    rw [← hlenA]
    exact List.drop_left A _
  have hdrop1 : (A ++ x :: l.drop p).drop (p + 1) = l.drop p := by
    rw [← List.drop_drop, hdrop]
    simp
  simp only [removeWithChildren, hget]
  rw [htake, hdrop, hdrop1]
  have hsub : (fun y => y - (0 + 1)) = fun y : Nat => y - 1 := by
    funext y; omega
  rw [hsub, hA, bumpAncestors_cancel]
  simp [hx, List.take_append_drop]

theorem noCollapsed_insert {α : Type} (l : List (Node α)) (p d : Nat)
    (item : α) (h : noCollapsed l) :
    noCollapsed
      (bumpAncestors (· + 1) (l.take p) d ++ ⟨item, d, 0, false⟩ :: l.drop p) := by
  apply noCollapsed_append
  · exact noCollapsed_bumpAncestors _ _ (noCollapsed_sub (List.take_sublist p l) h)
  · intro y hy
    rcases List.mem_cons.mp hy with hy | hy
    · rw [hy]
    · exact noCollapsed_sub (List.drop_sublist p l) h y hy

/-! ## Small bridge lemmas for `on_event` -/

theorem heightFrom_pos {α : Type} {l : List (Node α)} (h : l ≠ []) :
    0 < heightFrom l := by
  cases l with
  | nil => exact absurd rfl h
  | cons n rest => rw [heightFrom_cons]; omega

theorem isEmpty_false_of_ne {α : Type} {l : List (Node α)} (h : l ≠ []) :
    l.isEmpty = false := by
  cases l with
  | nil => exact absurd rfl h
  | cons n rest => rfl

theorem afterNav_fst {α : Type} (v : TreeView α) (last : Nat) :
    (afterNav v last).1 = v := by
  unfold afterNav
  split <;> rfl

theorem afterNav_spec {α : Type} (v : TreeView α) (last : Nat)
    (hne : v.list ≠ []) (hsel : v.hasOnSelect = true) :
    afterNav v last =
      (v, if v.focus = last then EvResult.ignored
          else EvResult.consumed (some (CbCall.select v.focus))) := by
  unfold afterNav
  rw [isEmpty_false_of_ne hne, hsel]
  by_cases h : v.focus = last
  · rw [if_pos h]
    have : (last != v.focus) = false := by
      rw [bne_eq_false_iff_eq]
      omega
    simp [this]
  · rw [if_neg h]
    have : (last != v.focus) = true := by
      rw [bne_iff_ne]
      omega
    simp [this]

theorem cbCount_le_one (r : EvResult) : cbCount r ≤ 1 := by
  cases r with
  | ignored => exact Nat.zero_le 1
  | consumed cb => cases cb <;> simp [cbCount]

theorem usizeDec_of_pos {n : Nat} (h : 0 < n) : usizeDec n = n - 1 := by
  unfold usizeDec
  rw [if_neg (by omega)]

/-! ## Claim theorems -/

/-- C9: while the view is disabled, `on_event` returns `Ignored` with the
state (focus, model, callbacks) untouched, and `enable` after `disable`
restores the original state, hence normal event handling. -/
theorem c9_disabled_noop {α : Type} (v w : TreeView α) (e : TEvent)
    (hv : v.enabled = false) (hw : w.enabled = true) :
    onEvent v e = (v, EvResult.ignored) ∧
      onEvent (TreeView.enable (TreeView.disable w)) e = onEvent w e := by
  constructor
  · unfold onEvent
    rw [hv]
    rfl
  · have hrestore : TreeView.enable (TreeView.disable w) = w := by
      cases w
      simp_all [TreeView.enable, TreeView.disable]
    rw [hrestore]

/-- Witness for C9 at a concrete disabled view and a concrete enabled view. -/
theorem c9_disabled_noop_witness :
    (TreeView.disable (TreeView.new Nat)).enabled = false ∧
      (TreeView.new Nat).enabled = true ∧
      onEvent (TreeView.disable (TreeView.new Nat)) TEvent.endKey =
        (TreeView.disable (TreeView.new Nat), EvResult.ignored) ∧
      onEvent (TreeView.enable (TreeView.disable (TreeView.new Nat))) TEvent.endKey =
        onEvent (TreeView.new Nat) TEvent.endKey :=
  ⟨rfl, rfl,
    (c9_disabled_noop (TreeView.disable (TreeView.new Nat)) (TreeView.new Nat)
      TEvent.endKey rfl rfl).1,
    (c9_disabled_noop (TreeView.disable (TreeView.new Nat)) (TreeView.new Nat)
      TEvent.endKey rfl rfl).2⟩

/-- C10: `set_selected_row` stores exactly the given index as the focus with
no clamping against the visible height, leaves the item storage unchanged,
and on a non-empty view `row()` then reports exactly that index (which may
therefore be at or beyond `visible_height()`). -/
theorem c10_set_selected_row {α : Type} (v : TreeView α) (i : Nat) :
    (TreeView.setSelectedRow v i).focus = i ∧
      (TreeView.setSelectedRow v i).list = v.list ∧
      (v.list ≠ [] → TreeView.rowOf (TreeView.setSelectedRow v i) = some i) := by
  refine ⟨rfl, rfl, ?_⟩
  intro h
  unfold TreeView.rowOf TreeView.isEmptyView TreeView.setSelectedRow
  simp [isEmpty_false_of_ne h]

/-- Witness for C10: selecting row 5 of a one-item view stores 5 and `row()`
reports 5, which is not below the visible height 1. -/
theorem c10_set_selected_row_witness :
    demoSolo.list ≠ [] ∧
      TreeView.rowOf (TreeView.setSelectedRow demoSolo 5) = some 5 ∧
      heightFrom (TreeView.setSelectedRow demoSolo 5).list ≤ 5 :=
  ⟨by decide, (c10_set_selected_row demoSolo 5).2.2 (by decide), by decide⟩

/-- C1 (divergence witness): the claim says every navigation key on an
enabled, EMPTY TreeView is a no-op, but on a fresh empty view `End` sets the
focus to the wrapped `visible_height() - 1 = 2^64 - 1` and `PageDown` sets
it to 10 (in a debug build the underflow in `height() - 1` panics
instead) — the focus is not unchanged. -/
theorem c1_empty_end_moves_focus :
    (onEvent (TreeView.new Nat) TEvent.endKey).1.focus = 2 ^ 64 - 1 ∧
      (onEvent (TreeView.new Nat) TEvent.pageDown).1.focus = 10 ∧
      (TreeView.new Nat).focus = 0 := by
  refine ⟨rfl, ?_, rfl⟩
  show min (0 + 10) (usizeDec (heightFrom ([] : List (Node Nat)))) = 10
  rw [heightFrom_nil]
  decide

/-- C8 (counterexample): the claim quantifies over every non-empty TreeView,
but `set_selected_row` can park the focus beyond the visible height; on a
one-item view with focus 5, `Down` leaves the focus at 5 while the claimed
clamp formula `min(focus+1, visible_height()-1)` demands 0. -/
theorem c8_nav_counterexample :
    ¬ ((onEvent demoFarFocus TEvent.down).1.focus =
        min (demoFarFocus.focus + 1) (heightFrom demoFarFocus.list - 1)) := by
  decide

/-- C8 (amended): provided the focused row is a valid visible row
(`focus < visible_height()`), on a non-empty enabled view Up/Down move the
focus by exactly 1 and PageUp/PageDown by exactly 10, clamped to
`[0, visible_height()-1]`, while Home jumps to 0 and End to
`visible_height()-1`. -/
theorem c8_nav_arithmetic {α : Type} (v : TreeView α) (hen : v.enabled = true)
    (hne : v.list ≠ []) (hf : v.focus < heightFrom v.list) :
    (onEvent v TEvent.up).1.focus = v.focus - 1 ∧
      (onEvent v TEvent.down).1.focus = min (v.focus + 1) (heightFrom v.list - 1) ∧
      (onEvent v TEvent.pageUp).1.focus = v.focus - 10 ∧
      (onEvent v TEvent.pageDown).1.focus = min (v.focus + 10) (heightFrom v.list - 1) ∧
      (onEvent v TEvent.home).1.focus = 0 ∧
      (onEvent v TEvent.endKey).1.focus = heightFrom v.list - 1 := by
  have hpos : 0 < heightFrom v.list := heightFrom_pos hne
  have hdec : usizeDec (heightFrom v.list) = heightFrom v.list - 1 :=
    usizeDec_of_pos hpos
  refine ⟨?_, ?_, ?_, ?_, ?_, ?_⟩
  · unfold onEvent
    rw [hen]
    by_cases h0 : v.focus > 0
    · simp only [Bool.not_true, Bool.false_eq_true, if_false, if_pos h0,
        afterNav_fst]
      omega
    · simp only [Bool.not_true, Bool.false_eq_true, if_false, if_neg h0]
      omega
  · unfold onEvent
    rw [hen]
    by_cases hg : v.focus + 1 < heightFrom v.list
    · simp only [Bool.not_true, Bool.false_eq_true, if_false, if_pos hg,
        afterNav_fst, hdec]
    · simp only [Bool.not_true, Bool.false_eq_true, if_false, if_neg hg]
      show v.focus = min (v.focus + 1) (heightFrom v.list - 1)
      omega
  · unfold onEvent
    rw [hen]
    simp only [Bool.not_true, Bool.false_eq_true, if_false, afterNav_fst]
    omega
  · unfold onEvent
    rw [hen]
    simp only [Bool.not_true, Bool.false_eq_true, if_false, afterNav_fst, hdec]
  · unfold onEvent
    rw [hen]
    simp only [Bool.not_true, Bool.false_eq_true, if_false, afterNav_fst]
  · unfold onEvent
    rw [hen]
    simp only [Bool.not_true, Bool.false_eq_true, if_false, afterNav_fst, hdec]

/-- Witness for the amended C8 at a concrete two-node view. -/
theorem c8_nav_arithmetic_witness :
    demoTwo.enabled = true ∧ demoTwo.list ≠ [] ∧
      demoTwo.focus < heightFrom demoTwo.list ∧
      (onEvent demoTwo TEvent.down).1.focus =
        min (demoTwo.focus + 1) (heightFrom demoTwo.list - 1) :=
  ⟨rfl, by decide, by decide,
    (c8_nav_arithmetic demoTwo rfl (by decide) (by decide)).2.1⟩

/-- C4: on a non-empty enabled view with a select handler registered, every
navigation key produces the select callback carrying the new focused row
exactly when the focused row changed, and nothing otherwise. -/
theorem c4_select_iff {α : Type} (v : TreeView α) (e : TEvent)
    (hen : v.enabled = true) (hne : v.list ≠ []) (hsel : v.hasOnSelect = true)
    (he : e = TEvent.up ∨ e = TEvent.down ∨ e = TEvent.pageUp ∨
      e = TEvent.pageDown ∨ e = TEvent.home ∨ e = TEvent.endKey) :
    (onEvent v e).2 =
      (if (onEvent v e).1.focus = v.focus then EvResult.ignored
       else EvResult.consumed (some (CbCall.select (onEvent v e).1.focus))) := by
  have hnav : ∀ w : TreeView α, w.list = v.list → w.hasOnSelect = true →
      (afterNav w v.focus).2 =
        (if (afterNav w v.focus).1.focus = v.focus then EvResult.ignored
         else EvResult.consumed (some (CbCall.select (afterNav w v.focus).1.focus))) := by
    intro w hw hws
    rw [afterNav_spec w v.focus (hw ▸ hne) hws]
  rcases he with h | h | h | h | h | h <;> subst h <;> unfold onEvent <;> rw [hen]
  · by_cases h0 : v.focus > 0
    · simp only [Bool.not_true, Bool.false_eq_true, if_false, if_pos h0]
      exact hnav _ rfl hsel
    · simp only [Bool.not_true, Bool.false_eq_true, if_false, if_neg h0]
      simp
  · by_cases hg : v.focus + 1 < heightFrom v.list
    · simp only [Bool.not_true, Bool.false_eq_true, if_false, if_pos hg]
      exact hnav _ rfl hsel
    · simp only [Bool.not_true, Bool.false_eq_true, if_false, if_neg hg]
      simp
  · simp only [Bool.not_true, Bool.false_eq_true, if_false]
    exact hnav _ rfl hsel
  · simp only [Bool.not_true, Bool.false_eq_true, if_false]
    exact hnav _ rfl hsel
  · simp only [Bool.not_true, Bool.false_eq_true, if_false]
    exact hnav _ rfl hsel
  · simp only [Bool.not_true, Bool.false_eq_true, if_false]
    exact hnav _ rfl hsel

/-- Witness for C4: `Down` on the two-node demo moves the focus from 0 to 1
and yields the select callback with row 1. -/
theorem c4_select_iff_witness :
    demoTwo.enabled = true ∧ demoTwo.list ≠ [] ∧ demoTwo.hasOnSelect = true ∧
      (onEvent demoTwo TEvent.down).2 =
        (if (onEvent demoTwo TEvent.down).1.focus = demoTwo.focus then EvResult.ignored
         else EvResult.consumed (some (CbCall.select (onEvent demoTwo TEvent.down).1.focus))) :=
  ⟨rfl, by decide, rfl,
    c4_select_iff demoTwo TEvent.down rfl (by decide) rfl (Or.inr (Or.inl rfl))⟩

/-- Unfolding equation for `setCollapsedAt` at an occupied index. -/
theorem setCollapsedAt_of_get {α : Type} (l : List (Node α)) (i : Nat)
    (c : Bool) (n : Node α) (h : l.get? i = some n) :
    setCollapsedAt l i c = l.set i { n with collapsed := c } := by
  unfold setCollapsedAt
  rw [h]

/-- Unfolding equation for `setCollapsedAt` at a vacant index. -/
theorem setCollapsedAt_of_none {α : Type} (l : List (Node α)) (i : Nat)
    (c : Bool) (h : l.get? i = none) : setCollapsedAt l i c = l := by
  unfold setCollapsedAt
  rw [h]

/-- Idempotence of collapse at the list level: collapsing the row-addressed
node twice equals collapsing it once. -/
theorem setCollapsedAt_idem {α : Type} (l : List (Node α)) (r : Nat)
    (hr : r < heightFrom l) :
    setCollapsedAt (setCollapsedAt l (visIdx l r) true)
        (visIdx (setCollapsedAt l (visIdx l r) true) r) true =
      setCollapsedAt l (visIdx l r) true := by
  have hs : visIdx l r < l.length := visIdx_lt_length l r hr
  cases hsome : l.get? (visIdx l r) with
  | none =>
    have := List.get?_eq_none.mp hsome
    omega
  | some n =>
    rw [setCollapsedAt_of_get l _ true n hsome]
    have hstable : visIdx (l.set (visIdx l r) { n with collapsed := true }) r =
        visIdx l r := visIdx_set_stable l r _ hr
    rw [hstable]
    have hget2 : (l.set (visIdx l r) { n with collapsed := true }).get?
        (visIdx l r) = some { n with collapsed := true } := by
      rw [List.get?_eq_getElem?]
      exact List.getElem?_set_eq_of_lt _ hs
    rw [setCollapsedAt_of_get _ _ true _ hget2]
    rw [List.set_set]

/-- C3: on a non-empty enabled view with a valid focused row, Enter resolves
the row through `visual_index`; if the node has children it flips its
collapsed flag and yields exactly the collapse callback with the row and the
new flag (when registered); otherwise it yields exactly the submit callback
with the row (when registered); the model is untouched in the leaf case and
at most one callback is produced. -/
theorem c3_enter {α : Type} (v : TreeView α) (hen : v.enabled = true)
    (hne : v.list ≠ []) (hf : v.focus < heightFrom v.list) :
    (onEvent v TEvent.enter =
      (if getChildren v.list (visIdx v.list v.focus) > 0 then
        ({ v with
            list :=
              setCollapsedAt v.list (visIdx v.list v.focus)
                (!getCollapsed v.list (visIdx v.list v.focus)) },
         if v.hasOnCollapse then
           EvResult.consumed (some (CbCall.collapse v.focus
             (!getCollapsed v.list (visIdx v.list v.focus))))
         else EvResult.ignored)
      else
        (v, if v.hasOnSubmit then EvResult.consumed (some (CbCall.submit v.focus))
            else EvResult.ignored))) ∧
      cbCount (onEvent v TEvent.enter).2 ≤ 1 := by
  refine ⟨?_, cbCount_le_one _⟩
  unfold onEvent
  rw [hen, isEmpty_false_of_ne hne]
  simp only [Bool.not_true, Bool.false_eq_true, if_false, Bool.not_false, if_true]
  by_cases hch : getChildren v.list (visIdx v.list v.focus) > 0
  · rw [if_pos hch, if_pos hch]
    by_cases hoc : v.hasOnCollapse
    · rw [if_pos hoc, if_pos hoc]
    · rw [if_neg hoc, if_neg hoc]
      unfold afterNav
      have hbne : (v.focus != v.focus) = false := by simp
      rw [hbne]
      simp
  · rw [if_neg hch, if_neg hch]
    by_cases hos : v.hasOnSubmit
    · rw [if_pos hos, if_pos hos]
    · rw [if_neg hos, if_neg hos]
      unfold afterNav
      have hbne : (v.focus != v.focus) = false := by simp
      rw [hbne]
      simp

/-- Witness for C3 at the two-node demo: Enter on the root (which has one
child) collapses it and yields the collapse callback with (0, true). -/
theorem c3_enter_witness :
    demoTwo.enabled = true ∧ demoTwo.list ≠ [] ∧
      demoTwo.focus < heightFrom demoTwo.list ∧
      onEvent demoTwo TEvent.enter =
        ({ demoTwo with list := [⟨0, 0, 1, true⟩, ⟨1, 1, 0, false⟩] },
         EvResult.consumed (some (CbCall.collapse 0 true))) := by
  refine ⟨rfl, by decide, by decide, ?_⟩
  have h := (c3_enter demoTwo rfl (by decide) (by decide)).1
  rw [h]
  decide

/-- C6: collapsing the same visible row twice in a row yields exactly the
same state — hence the same visible projection — as collapsing it once. -/
theorem c6_collapse_idem {α : Type} (v : TreeView α) (r : Nat)
    (hr : r < heightFrom v.list) :
    TreeView.setCollapsedView (TreeView.setCollapsedView v r true) r true =
      TreeView.setCollapsedView v r true := by
  show ({ v with
      list := setCollapsedAt (setCollapsedAt v.list (visIdx v.list r) true)
        (visIdx (setCollapsedAt v.list (visIdx v.list r) true) r) true } : TreeView α) =
    { v with list := setCollapsedAt v.list (visIdx v.list r) true }
  rw [setCollapsedAt_idem v.list r hr]

/-- Witness for C6 at the two-node demo, collapsing row 0. -/
theorem c6_collapse_idem_witness :
    0 < heightFrom demoTwo.list ∧
      TreeView.setCollapsedView (TreeView.setCollapsedView demoTwo 0 true) 0 true =
        TreeView.setCollapsedView demoTwo 0 true :=
  ⟨by decide, c6_collapse_idem demoTwo 0 (by decide)⟩

/-- C7: `set_collapsed` on any row leaves the storage unchanged except
possibly the collapsed flag of the addressed node: the length, every node's
value, level and children count are unchanged, every other position is
entirely unchanged, and the visible projection stays a subsequence of
storage in storage order. -/
theorem c7_set_collapsed_frame {α : Type} (v : TreeView α) (row : Nat) (c : Bool) :
    (TreeView.setCollapsedView v row c).list.length = v.list.length ∧
      (TreeView.setCollapsedView v row c).list.map
          (fun n => (n.value, n.level, n.children)) =
        v.list.map (fun n => (n.value, n.level, n.children)) ∧
      (∀ i, i ≠ visIdx v.list row →
        (TreeView.setCollapsedView v row c).list.get? i = v.list.get? i) ∧
      List.Sublist (visibleList (TreeView.setCollapsedView v row c).list)
        (TreeView.setCollapsedView v row c).list := by
  have hlist : (TreeView.setCollapsedView v row c).list =
      setCollapsedAt v.list (visIdx v.list row) c := rfl
  rw [hlist]
  cases hsome : v.list.get? (visIdx v.list row) with
  | none =>
    rw [setCollapsedAt_of_none _ _ _ hsome]
    exact ⟨rfl, rfl, fun i _ => rfl, visibleList_sublist _⟩
  | some n =>
    rw [setCollapsedAt_of_get _ _ _ _ hsome]
    refine ⟨List.length_set .., ?_, ?_, visibleList_sublist _⟩
    · rw [List.map_set ..]
      apply set_same
      rw [List.get?_map, hsome]
      rfl
    · intro i hi
      rw [List.get?_eq_getElem?, List.get?_eq_getElem?]
      exact List.getElem?_set_ne (fun hcon => hi hcon.symm)

/-- Witness for C7 at the two-node demo, collapsing row 0. -/
theorem c7_set_collapsed_frame_witness :
    (TreeView.setCollapsedView demoTwo 0 true).list.map
        (fun n => (n.value, n.level, n.children)) =
      demoTwo.list.map (fun n => (n.value, n.level, n.children)) ∧
      (TreeView.setCollapsedView demoTwo 0 true).list.get? 1 = demoTwo.list.get? 1 :=
  ⟨(c7_set_collapsed_frame demoTwo 0 true).2.1,
    (c7_set_collapsed_frame demoTwo 0 true).2.2.1 1 (by decide)⟩

/-- C5 (counterexample): reachable state refuting the claimed "equality iff
no node is collapsed" — insert one root into a fresh view and collapse it;
the collapsed node is a leaf, so the visible height still equals the storage
length even though a node is collapsed. -/
theorem c5_counterexample :
    heightFrom (TreeView.collapseItem
        (TreeView.insertItem (TreeView.new Nat) 0 Placement.child 0).1 0).list =
      (TreeView.collapseItem
        (TreeView.insertItem (TreeView.new Nat) 0 Placement.child 0).1 0).list.length ∧
      ¬ noCollapsed (TreeView.collapseItem
        (TreeView.insertItem (TreeView.new Nat) 0 Placement.child 0).1 0).list := by
  decide

/-- C5 (amended): for every well-formed storage (descendant spans in
bounds), `visible_height() ≤ storage length`, with equality iff every
collapsed node has no children. -/
theorem c5_height_invariant {α : Type} (l : List (Node α)) (hwf : WF l) :
    heightFrom l ≤ l.length ∧
      (heightFrom l = l.length ↔ ∀ x ∈ l, x.collapsed = true → x.children = 0) :=
  ⟨heightFrom_le l,
    ⟨flat_of_heightFrom_eq l hwf, heightFrom_eq_of_flat l⟩⟩

/-- Witness for the amended C5 on a well-formed two-node storage whose only
collapsed node is a leaf. -/
theorem c5_height_invariant_witness :
    WF demoFlatLeaf ∧ heightFrom demoFlatLeaf ≤ demoFlatLeaf.length ∧
      (heightFrom demoFlatLeaf = demoFlatLeaf.length ↔
        ∀ x ∈ demoFlatLeaf, x.collapsed = true → x.children = 0) :=
  ⟨by decide, (c5_height_invariant demoFlatLeaf (by decide)).1,
    (c5_height_invariant demoFlatLeaf (by decide)).2⟩

/-- C2 (counterexample): with a collapsed subtree before the insertion
point, `insert_item` returns a STORAGE index, and `remove_item` re-reads it
as a visible row; on `demoShifted` (collapsed root hiding one child, then
two more roots), inserting 9 as a sibling before row 1 and removing at the
returned index deletes the wrong node, so the storage order is not
restored. -/
theorem c2_counterexample :
    ¬ (heightFrom ((TreeView.removeItem
          (TreeView.insertItem demoShifted 9 Placement.siblingBefore 1).1
          (TreeView.insertItem demoShifted 9 Placement.siblingBefore 1).2).1).list =
        heightFrom demoShifted.list ∧
       ((TreeView.removeItem
          (TreeView.insertItem demoShifted 9 Placement.siblingBefore 1).1
          (TreeView.insertItem demoShifted 9 Placement.siblingBefore 1).2).1).list.map
            Node.value =
        demoShifted.list.map Node.value) := by
  decide

/-- C2 (amended): on a well-formed model with NO collapsed node (so visible
rows and storage indices coincide), `insert_item` at any row addressing an
item followed immediately by `remove_item` at the returned index restores
the visible height and the full storage order. -/
theorem c2_insert_remove_roundtrip {α : Type} (v : TreeView α) (item : α)
    (pl : Placement) (r : Nat) (hwf : WF v.list) (hnc : noCollapsed v.list)
    (hr : r < heightFrom v.list) :
    heightFrom ((TreeView.removeItem (TreeView.insertItem v item pl r).1
        (TreeView.insertItem v item pl r).2).1).list = heightFrom v.list ∧
      ((TreeView.removeItem (TreeView.insertItem v item pl r).1
        (TreeView.insertItem v item pl r).2).1).list.map Node.value =
        v.list.map Node.value := by
  have hlen : heightFrom v.list = v.list.length := heightFrom_noCollapsed v.list hnc
  have hrl : r < v.list.length := by omega
  have hvi : visIdx v.list r = r := visIdx_noCollapsed v.list r hnc hrl
  cases hsome : v.list.get? r with
  | none =>
    have := List.get?_eq_none.mp hsome
    omega
  | some nr =>
    obtain ⟨p, d, hp, heq⟩ := listInsert_shape v.list pl r item nr hsome hwf
    have hins : TreeView.insertItem v item pl r =
        ({ v with
            list := bumpAncestors (· + 1) (v.list.take p) d ++
              ⟨item, d, 0, false⟩ :: v.list.drop p },
          p) := by
      unfold TreeView.insertItem
      rw [hvi, heq]
    rw [hins]
    set l1 : List (Node α) := bumpAncestors (· + 1) (v.list.take p) d ++
      ⟨item, d, 0, false⟩ :: v.list.drop p with hl1
    have hl1len : l1.length = v.list.length + 1 := by
      rw [hl1]
      simp only [List.length_append, List.length_cons, bumpAncestors_length,
        List.length_take, List.length_drop]
      omega
    have hnc1 : noCollapsed l1 := noCollapsed_insert v.list p d item hnc
    have hvi1 : visIdx l1 p = p := visIdx_noCollapsed l1 p hnc1 (by omega)
    have hrem : removeWithChildren l1 p = (some [item], v.list) :=
      roundtrip_list v.list p d item hp
    have hfinal : ((TreeView.removeItem { v with list := l1 } p).1).list = v.list := by
      unfold TreeView.removeItem
      simp only [hvi1, hrem]
    rw [hfinal]
    exact ⟨rfl, rfl⟩

/-- Witness for the amended C2: inserting 3 as a child of row 0 of the
one-node demo and removing at the returned index restores height and
values. -/
theorem c2_insert_remove_roundtrip_witness :
    WF demoSolo.list ∧ noCollapsed demoSolo.list ∧
      0 < heightFrom demoSolo.list ∧
      (heightFrom ((TreeView.removeItem (TreeView.insertItem demoSolo 3 Placement.child 0).1
          (TreeView.insertItem demoSolo 3 Placement.child 0).2).1).list =
        heightFrom demoSolo.list ∧
        ((TreeView.removeItem (TreeView.insertItem demoSolo 3 Placement.child 0).1
          (TreeView.insertItem demoSolo 3 Placement.child 0).2).1).list.map Node.value =
          demoSolo.list.map Node.value) :=
  ⟨by decide, by decide, by decide,
    c2_insert_remove_roundtrip demoSolo 3 Placement.child 0 (by decide) (by decide)
      (by decide)⟩
